import Mathlib

/-!
# A verification development for the `nilarg` static analyzer

This file gives a shallow embedding, in Lean 4, of the per-function SSA
parameter panic analysis implemented in `nilarg.go`, and proves or refutes
the stated properties of its specification.

The embedding follows the Go source closely:

* `isNillable` mirrors `isNillable` (the `switch t.Underlying().(type)` over
  `*types.Slice`, `*types.Interface`, `*types.Map`, `*types.Pointer`);
* `isNilChecked` mirrors `isNilChecked`, including the fact that the Go
  source compares two `*big.Int` *pointers* with `==` where it intended a
  value comparison (see `bigIntPtrEq`);
* `classify` mirrors the `switch instr := fpr.(type)` over the referrers of
  a parameter inside `checkFunc`, including the call case's bounds test
  `i >= len(instr.Common().Args)` which tests the caller's parameter index
  `i` rather than the fact index `fi` that is actually used to index the
  argument list;
* `checkParams` mirrors the `for i, fp := range fn.Params` loop with its
  labelled `refLoop` and `break refLoop`;
* `checkFunc` mirrors the export logic at the end of `checkFunc`
  (`len(fact) > 0 && fn.Object() != nil`, the `ImportObjectFact` /
  `reflect.DeepEqual` change test);
* `sweep` and `runLoop` mirror the fixed-point loop in `run`
  (`for { cc := 0; ...; if cc == 0 { break } }`), with an explicit fuel
  argument counting the sweeps that are still allowed.

The SSA program, the type information, and the fact store are external
collaborators in the Go code; they are modelled as plain data below.
Machine pointers used for SSA value identity are modelled by natural-number
identifiers with decidable equality.
-/

namespace Nilarg

/-- Global identity of a `types.Object` (the key of object facts). -/
abbrev ObjId := Nat

/-- Identity of a `types.Package`. -/
abbrev PkgId := Nat

/-- The underlying shapes of `go/types` types that the analyzer inspects.
`named` models a defined type together with its underlying type. -/
inductive GoType where
  | pointer
  | interface_
  | map_
  | slice
  | chan_
  | signature
  | basic
  | array
  | struct_
  | named (u : GoType)
deriving DecidableEq, Repr

/-- `t.Underlying()` of `go/types`: strip the `named` wrapper. -/
def underlying : GoType → GoType
  | .named u => underlying u
  | t => t

/-- `isNillable` from the source: `switch t.Underlying().(type)` returning
true for `*types.Slice`, `*types.Interface`, `*types.Map`, `*types.Pointer`
and false otherwise. -/
def isNillable (t : GoType) : Bool :=
  match underlying t with
  | .slice => true
  | .interface_ => true
  | .map_ => true
  | .pointer => true
  | _ => false

/-- Modelled from the spec: `isNillable(T)` "returns true iff `T`'s
underlying form is one of {pointer, interface, map, slice, channel}".
This is the specification's version, kept separate so it can be compared
with the source's `isNillable`. -/
def isNillableSpec (t : GoType) : Bool :=
  match underlying t with
  | .slice => true
  | .interface_ => true
  | .map_ => true
  | .pointer => true
  | .chan_ => true
  | _ => false

/-- An SSA value, identified up to the pointer identity the Go code uses in
comparisons such as `instr.X == fp`. `constV` carries the answer of
`(*ssa.Const).IsNil()`. -/
inductive Value where
  | param (id : Nat)
  | constV (id : Nat) (nilConst : Bool)
  | other (id : Nat)
deriving DecidableEq, Repr

/-- `isNil` from the source: the value is an `*ssa.Const` and `IsNil()`. -/
def isNil : Value → Bool
  | .constV _ n => n
  | _ => false

/-- Comparison operators of a `*ssa.BinOp` as far as `isNilChecked`
distinguishes them (`token.EQL`, `token.NEQ`, anything else). -/
inductive CmpOp where
  | eq
  | neq
  | otherOp
deriving DecidableEq, Repr

/-- The shape of an `*ssa.If` condition: either its defining instruction is
a `*ssa.BinOp` (the only case `isNilChecked` inspects) or it is not. -/
inductive Cond where
  | binop (op : CmpOp) (x y : Value)
  | notBinop
deriving DecidableEq, Repr

/-- The last instruction of a basic block, as far as `isNilChecked` looks at
it: an `*ssa.If` with its two successors (`Succs[0]`, `Succs[1]`), or
anything else. Successor blocks are referenced by block index. -/
inductive Term where
  | ifT (cond : Cond) (succ0 succ1 : Nat)
  | noIf
deriving DecidableEq, Repr

/-- A basic block: its immediate dominator (`b.Idom()`, `none` for the
entry block) referenced by block index, and its terminator shape. The
block's own index is its position in the function's block list. -/
structure Block where
  idom : Option Nat
  term : Term
deriving DecidableEq, Repr

/-- The statically known callee of a call, after the source's
`instr.Common().StaticCallee()` and `.Object()` checks succeeded: the
callee's object identity and its package. -/
structure Callee where
  obj : ObjId
  pkg : PkgId
deriving DecidableEq, Repr

/-- The SSA instruction shapes inspected by the referrer switch in
`checkFunc`. Each carries the block index of `instr.Block()`. A call with
`callee = none` models `StaticCallee() == nil || StaticCallee().Object() == nil`.
For `sliceI`, `xType` is `instr.X.Type()`. For `unOp`, `isMul` records
whether `instr.Op == token.MUL`. `otherI` stands for every instruction
shape not in the switch. -/
inductive Instr where
  | callI (isInvoke : Bool) (callee : Option Callee) (args : List Value) (block : Nat)
  | fieldAddr (x : Value) (block : Nat)
  | fieldI (x : Value) (block : Nat)
  | indexAddr (x : Value) (block : Nat)
  | typeAssert (x : Value) (commaOk : Bool) (block : Nat)
  | sliceI (x : Value) (xType : GoType) (block : Nat)
  | storeI (addr : Value) (block : Nat)
  | mapUpdate (m : Value) (block : Nat)
  | unOp (isMul : Bool) (x : Value) (block : Nat)
  | otherI (block : Nat)
deriving DecidableEq, Repr

/-- A function parameter: its type, its SSA value identity, and
`fp.Referrers()` (`none` models a nil referrer list). -/
structure Param where
  type : GoType
  value : Value
  referrers : Option (List Instr)
deriving DecidableEq, Repr

/-- An SSA function: `fn.Object()` (`none` for anonymous or synthetic
functions), `fn.Params`, and `fn.Blocks`. -/
structure Func where
  obj : Option ObjId
  params : List Param
  blocks : List Block
deriving DecidableEq, Repr

/-- The analysis pass environment: the current package and, for every
package, whether `pass.ImportPackageFact(pkg, &pkgDone{})` succeeds. Facts
of dependency packages are fixed before the pass runs, so this is constant
during one run. -/
structure Env where
  curPkg : PkgId
  donePkgs : PkgId → Bool

/-- A `panicArgs` fact: the set of parameter indices. -/
abbrev Fact := Finset Nat

/-- The object-fact store visible to the pass: `pass.ImportObjectFact`.
`none` means no fact has been recorded for the object. -/
abbrev Store := ObjId → Option Fact

/-- `pass.ExportObjectFact(o, f)`: record `f` for `o`. -/
def exportFact (s : Store) (o : ObjId) (f : Fact) : Store :=
  fun o' => if o' = o then some f else s o'

/-- Models the Go expression `vis.Or(visited, vis) == visited` guarding the
top of `isNilChecked`. `vis` is freshly allocated by `big.NewInt` and
`(*big.Int).Or` returns its receiver, so the Go `==` compares the address
of the fresh `vis` with the caller's `visited` pointer; the two are always
distinct allocations, hence the comparison is false for every pair of
operands. The operands are kept so the data flow of the source is visible. -/
def bigIntPtrEq (_fresh _old : Finset Nat) : Bool := false

/-- `isNilChecked` from the source. `blocks` is the enclosing function's
block list, `v` the parameter value, `b` the index of the block being
tested, `visited` the bit set carried through the recursion (the Go code
ORs `1 << b.Index` into it before recursing). The recursion ascends the
immediate-dominator chain; since a well-formed dominator chain visits each
block at most once, a fuel of `blocks.length + 1` is enough to reach the
entry block, and exhausted fuel conservatively answers `false`. -/
def isNilChecked (blocks : List Block) (v : Value) : Nat → Finset Nat → Nat → Bool
  | _, _, 0 => false
  | b, visited, fuel + 1 =>
    if bigIntPtrEq (visited ∪ {b}) visited then
      false
    else
      match (blocks.get? b).bind (fun bb => bb.idom) with
      | none => false
      | some bi =>
        match blocks.get? bi with
        | none => false
        | some bib =>
          match bib.term with
          | .ifT (.binop .eq x y) _ s1 =>
            if (isNil x && y == v) || (isNil y && x == v) then
              b == s1
            else
              isNilChecked blocks v bi (visited ∪ {b}) fuel
          | .ifT (.binop .neq x y) s0 _ =>
            if (isNil x && y == v) || (isNil y && x == v) then
              b == s0
            else
              isNilChecked blocks v bi (visited ∪ {b}) fuel
          | _ => isNilChecked blocks v bi (visited ∪ {b}) fuel

/-- The call `isNilChecked(fp, instr.Block(), start)` as `checkFunc` makes
it: `start := big.NewInt(0)` is the empty visited set, and the fuel is
large enough for any well-formed dominator chain of `fn`. -/
def nilCheckedHere (fn : Func) (fp : Param) (blk : Nat) : Bool :=
  isNilChecked fn.blocks fp.value blk ∅ (fn.blocks.length + 1)

/-- The body of `for fi := range ffact { ... }` in the call case of
`checkFunc`: some `fi` in the fact hits, where a hit requires the source's
(mis-)guard `i < len(args)` on the caller's parameter index `i`, and then
`args[fi] == fp && !isNilChecked(fp, instr.Block(), start)`. The index
`args[fi]` is modelled with `List.get?`; in Go an `fi` outside the argument
list would panic the analyzer, which the guard as written does not prevent. -/
def callFactHit (fn : Func) (i : Nat) (fp : Param) (args : List Value) (blk : Nat)
    (ffact : Fact) : Bool :=
  decide (∃ fi ∈ ffact,
    i < args.length ∧ args.get? fi = some fp.value ∧ nilCheckedHere fn fp blk = false)

/-- The three possible outcomes of classifying one referrer in the
`refLoop` of `checkFunc`: the referrer is evidence (`fact[i]` is set and
the loop breaks), it is not evidence, or the whole `checkFunc` aborts with
`return true` because a foreign callee's package has no `pkgDone` fact. -/
inductive ScanStep where
  | evidence
  | noEvidence
  | abortScan
deriving DecidableEq, Repr

/-- The `switch instr := fpr.(type)` over one referrer of parameter `fp`
(at index `i`) in `checkFunc`. The call case folds the source's duplicated
foreign-package and unconditional `ImportObjectFact` loops into one hit
test, which is sound because both loops run the same test on the same
imported fact and the first successful hit breaks the loop. -/
def classify (env : Env) (store : Store) (fn : Func) (i : Nat) (fp : Param) :
    Instr → ScanStep
  | .callI isInvoke callee args blk =>
    if isInvoke then
      .noEvidence
    else
      match callee with
      | none => .noEvidence
      | some c =>
        if c.pkg != env.curPkg && !env.donePkgs c.pkg then
          .abortScan
        else
          match store c.obj with
          | none => .noEvidence
          | some ffact =>
            if callFactHit fn i fp args blk ffact then .evidence else .noEvidence
  | .fieldAddr x blk =>
    if x == fp.value && !nilCheckedHere fn fp blk then .evidence else .noEvidence
  | .fieldI x blk =>
    if x == fp.value && !nilCheckedHere fn fp blk then .evidence else .noEvidence
  | .indexAddr x blk =>
    if x == fp.value && !nilCheckedHere fn fp blk then .evidence else .noEvidence
  | .typeAssert x commaOk blk =>
    if x == fp.value && !commaOk && !nilCheckedHere fn fp blk then .evidence else .noEvidence
  | .sliceI x xType blk =>
    match underlying xType with
    | .pointer =>
      if x == fp.value && !nilCheckedHere fn fp blk then .evidence else .noEvidence
    | _ => .noEvidence
  | .storeI addr blk =>
    if addr == fp.value && !nilCheckedHere fn fp blk then .evidence else .noEvidence
  | .mapUpdate m blk =>
    if m == fp.value && !nilCheckedHere fn fp blk then .evidence else .noEvidence
  | .unOp isMul x blk =>
    if x == fp.value && isMul && !nilCheckedHere fn fp blk then .evidence else .noEvidence
  | .otherI _ => .noEvidence

/-- Result of walking one parameter's referrer list (`refLoop`). -/
inductive ScanResult where
  | found
  | notFound
  | aborted
deriving DecidableEq, Repr

/-- The `refLoop` of `checkFunc`: walk the referrers in order; the first
evidence breaks the loop, an abort propagates, otherwise keep walking. -/
def scanRefs (env : Env) (store : Store) (fn : Func) (i : Nat) (fp : Param) :
    List Instr → ScanResult
  | [] => .notFound
  | r :: rest =>
    match classify env store fn i fp r with
    | .evidence => .found
    | .abortScan => .aborted
    | .noEvidence => scanRefs env store fn i fp rest

/-- The `for i, fp := range fn.Params` loop of `checkFunc`, on the indexed
parameter list. Non-nillable parameters and parameters without a referrer
list are skipped; a found witness adds `i` to the fact; an abort makes the
whole `checkFunc` return `true` immediately (modelled as `none`), which
discards the partially built fact. -/
def checkParams (env : Env) (store : Store) (fn : Func) :
    List (Nat × Param) → Option Fact
  | [] => some ∅
  | (i, fp) :: rest =>
    if !isNillable fp.type then
      checkParams env store fn rest
    else
      match fp.referrers with
      | none => checkParams env store fn rest
      | some refs =>
        match scanRefs env store fn i fp refs with
        | .found => (checkParams env store fn rest).map (insert i)
        | .notFound => checkParams env store fn rest
        | .aborted => none

/-- The fact computed by one call of `checkFunc` on `fn`, before the export
step (`none` when the scan aborted on a missing `pkgDone`). -/
def checkFuncFact (env : Env) (store : Store) (fn : Func) : Option Fact :=
  checkParams env store fn fn.params.enum

/-- The tail of `checkFunc`: the export guard
`len(fact) > 0 && fn.Object() != nil`, the `ImportObjectFact` of the old
fact, the `reflect.DeepEqual` change test, and the `ExportObjectFact`.
Returns the updated store and the boolean `checkFunc` returns to `run`. -/
def checkFunc (env : Env) (store : Store) (fn : Func) : Store × Bool :=
  match checkFuncFact env store fn with
  | none => (store, true)
  | some fact =>
    if fact = ∅ then
      (store, false)
    else
      match fn.obj with
      | none => (store, false)
      | some o =>
        match store o with
        | some old =>
          if old ≠ fact then
            (exportFact store o fact, true)
          else
            (exportFact store o fact, false)
        | none => (exportFact store o fact, false)

/-- One sweep of the fixed-point loop in `run`: fold `checkFunc` over the
source functions, counting how many returned `true` (the `cc` counter). -/
def sweep (env : Env) : List Func → Store → Store × Nat
  | [], store => (store, 0)
  | fn :: rest, store =>
    match checkFunc env store fn with
    | (store1, changed) =>
      match sweep env rest store1 with
      | (store2, cc) => (store2, if changed then cc + 1 else cc)

/-- The `for { ... if cc == 0 { break } }` loop of `run`, with fuel
counting the number of sweeps still allowed; `none` means the loop did not
reach `cc == 0` within that many sweeps. -/
def runLoop (env : Env) (fns : List Func) : Nat → Store → Option Store
  | 0, _ => none
  | fuel + 1, store =>
    match sweep env fns store with
    | (store1, cc) => if cc = 0 then some store1 else runLoop env fns fuel store1

/-- Unconditional iteration of `sweep`, used to state per-sweep
monotonicity of the recorded facts. -/
def sweepIter (env : Env) (fns : List Func) : Nat → Store → Store
  | 0, store => store
  | n + 1, store => (sweep env fns (sweepIter env fns n store)).1

/-- Number of nillable parameters of `fn`. -/
def nillableCount (fn : Func) : Nat :=
  (fn.params.filter fun p => isNillable p.type).length

/-- `Σ_F |nillable-params(F)|` over the source functions. -/
def totalNillable (fns : List Func) : Nat :=
  (fns.map nillableCount).sum

/-- Pointwise growth of fact stores: every recorded set stays recorded and
only gains indices. -/
def StoreLe (s s' : Store) : Prop :=
  ∀ o f, s o = some f → ∃ f', s' o = some f' ∧ f ⊆ f'

/-- Distinct source functions have distinct objects (true of `go/types`:
an object determines its function). -/
def ObjsDistinct (fns : List Func) : Prop :=
  ∀ fn1 ∈ fns, ∀ fn2 ∈ fns, ∀ o : ObjId,
    fn1.obj = some o → fn2.obj = some o → fn1 = fn2

/-- At the start of a run no object fact has been recorded yet for any
function of the current package (facts about a package's own objects are
produced only by its own pass). -/
def InitLocalNone (fns : List Func) (store : Store) : Prop :=
  ∀ fn ∈ fns, ∀ o, fn.obj = some o → store o = none

/-- The referrer shapes on which `checkFunc` hits its
`return true`-on-missing-`pkgDone` branch: a non-invoke call whose
statically known callee has an object in a foreign package whose `pkgDone`
sentinel is not importable. -/
def abortInstr (env : Env) : Instr → Bool
  | .callI isInvoke callee _ _ =>
    !isInvoke &&
      (match callee with
       | none => false
       | some c => c.pkg != env.curPkg && !env.donePkgs c.pkg)
  | _ => false

/-- No referrer of any parameter of any source function triggers the
missing-`pkgDone` abort. -/
def NoAbortCalls (env : Env) (fns : List Func) : Prop :=
  ∀ fn ∈ fns, ∀ p ∈ fn.params, ∀ r ∈ p.referrers.getD [], abortInstr env r = false

/-- Provenance invariant of the store along a run: every fact recorded for
a source function was computed by `checkFunc` from some earlier (smaller)
store. -/
def Inv (env : Env) (fns : List Func) (store : Store) : Prop :=
  ∀ fn ∈ fns, ∀ o, fn.obj = some o → ∀ old, store o = some old →
    ∃ s0, StoreLe s0 store ∧ checkFuncFact env s0 fn = some old

/-- Soundness invariant of the store: every recorded index is the index of
a nillable parameter of its function. -/
def NillableInv (fns : List Func) (store : Store) : Prop :=
  ∀ fn ∈ fns, ∀ o, fn.obj = some o → ∀ f, store o = some f →
    ∀ j ∈ f, ∃ p, fn.params.get? j = some p ∧ isNillable p.type = true

/-- Size of the fact recorded for one function (0 when none). -/
def entryCard (store : Store) (fn : Func) : Nat :=
  match fn.obj with
  | none => 0
  | some o =>
    match store o with
    | none => 0
    | some f => f.card

/-- Total size of the recorded facts of the source functions: the measure
that bounds the fixed-point. -/
def mu (fns : List Func) (store : Store) : Nat :=
  (fns.map (entryCard store)).sum

theorem StoreLe.rfl (s : Store) : StoreLe s s :=
  fun _ f h => ⟨f, h, Finset.Subset.refl f⟩

theorem StoreLe.trans {s1 s2 s3 : Store} (h12 : StoreLe s1 s2) (h23 : StoreLe s2 s3) :
    StoreLe s1 s3 := by
  intro o f h
  obtain ⟨f2, h2, hsub2⟩ := h12 o f h
  obtain ⟨f3, h3, hsub3⟩ := h23 o f2 h2
  exact ⟨f3, h3, Finset.Subset.trans hsub2 hsub3⟩

theorem classify_abort_iff (env : Env) (s : Store) (fn : Func) (i : Nat) (fp : Param)
    (r : Instr) : classify env s fn i fp r = .abortScan ↔ abortInstr env r = true := by
  cases r <;>
    simp only [classify, abortInstr] <;>
    (repeat' split) <;>
    simp_all

theorem callFactHit_mono {f1 f2 : Fact} (hsub : f1 ⊆ f2) (fn : Func) (i : Nat) (fp : Param)
    (args : List Value) (blk : Nat) (h : callFactHit fn i fp args blk f1 = true) :
    callFactHit fn i fp args blk f2 = true := by
  simp only [callFactHit, decide_eq_true_eq] at h ⊢
  obtain ⟨fi, hfi, hrest⟩ := h
  exact ⟨fi, hsub hfi, hrest⟩

theorem classify_evidence_mono {env : Env} {s s' : Store} {fn : Func} {i : Nat} {fp : Param}
    (hle : StoreLe s s') (r : Instr) (h : classify env s fn i fp r = .evidence) :
    classify env s' fn i fp r = .evidence := by
  cases r with
  | callI isInvoke callee args blk =>
    simp only [classify] at h ⊢
    cases isInvoke with
    | true => simp at h
    | false =>
      simp only [Bool.false_eq_true, if_false] at h ⊢
      cases callee with
      | none => simp at h
      | some c =>
        simp only at h ⊢
        split at h
        · simp at h
        · rename_i htest
          rw [if_neg htest]
          rcases hsc : s c.obj with _ | ffact
          · rw [hsc] at h; simp at h
          · rw [hsc] at h
            obtain ⟨ffact', hsc', hsub⟩ := hle c.obj ffact hsc
            rw [hsc']
            split at h
            · rename_i heq2
              exact absurd heq2 (by simp)
            · rename_i ffact2 heq2
              injection heq2 with heq2
              subst heq2
              split at h
              · rename_i hhit
                rw [if_pos (callFactHit_mono hsub fn i fp args blk hhit)]
              · simp at h
  | fieldAddr x blk => exact h
  | fieldI x blk => exact h
  | indexAddr x blk => exact h
  | typeAssert x commaOk blk => exact h
  | sliceI x xType blk => exact h
  | storeI addr blk => exact h
  | mapUpdate m blk => exact h
  | unOp isMul x blk => exact h
  | otherI blk => exact h

theorem classify_noEvidence_mono {env : Env} {s s' : Store} {fn : Func} {i : Nat} {fp : Param}
    (_hle : StoreLe s s') (r : Instr) (h : classify env s fn i fp r = .noEvidence) :
    classify env s' fn i fp r = .noEvidence ∨ classify env s' fn i fp r = .evidence := by
  rcases he : classify env s' fn i fp r with _ | _ | _
  · right; rfl
  · left; rfl
  · exfalso
    have h1 := (classify_abort_iff env s' fn i fp r).mp he
    have h2 := (classify_abort_iff env s fn i fp r).mpr h1
    rw [h] at h2
    exact ScanStep.noConfusion h2

theorem scanRefs_mono {env : Env} {s s' : Store} {fn : Func} {i : Nat} {fp : Param}
    (hle : StoreLe s s') (l : List Instr) :
    (scanRefs env s fn i fp l = .found → scanRefs env s' fn i fp l = .found) ∧
    (scanRefs env s fn i fp l = .notFound →
      scanRefs env s' fn i fp l = .found ∨ scanRefs env s' fn i fp l = .notFound) := by
  induction l with
  | nil => simp [scanRefs]
  | cons r rest ih =>
    constructor
    · intro h
      rcases hc : classify env s fn i fp r with _ | _ | _
      · simp only [scanRefs, classify_evidence_mono hle r hc]
      · simp only [scanRefs, hc] at h
        rcases classify_noEvidence_mono hle r hc with hc' | hc'
        · simp only [scanRefs, hc']
          exact ih.1 h
        · simp only [scanRefs, hc']
      · simp only [scanRefs, hc] at h
        exact ScanResult.noConfusion h
    · intro h
      rcases hc : classify env s fn i fp r with _ | _ | _
      · simp only [scanRefs, hc] at h
        exact ScanResult.noConfusion h
      · simp only [scanRefs, hc] at h
        rcases classify_noEvidence_mono hle r hc with hc' | hc'
        · simp only [scanRefs, hc']
          exact ih.2 h
        · simp only [scanRefs, hc']
          exact Or.inl trivial
      · simp only [scanRefs, hc] at h
        exact ScanResult.noConfusion h

theorem checkParams_mono {env : Env} {s s' : Store} {fn : Func} (hle : StoreLe s s') :
    ∀ pl fact, checkParams env s fn pl = some fact →
      ∃ fact', checkParams env s' fn pl = some fact' ∧ fact ⊆ fact' := by
  intro pl
  induction pl with
  | nil =>
    intro fact h
    simp only [checkParams, Option.some.injEq] at h
    exact ⟨∅, rfl, h ▸ Finset.Subset.refl _⟩
  | cons ip rest ih =>
    obtain ⟨i, fp⟩ := ip
    intro fact h
    simp only [checkParams] at h ⊢
    by_cases hn : isNillable fp.type
    · simp only [hn, Bool.not_true, Bool.false_eq_true, if_false] at h ⊢
      rcases href : fp.referrers with _ | refs
      · simp only [href] at h ⊢
        exact ih fact h
      · simp only [href] at h ⊢
        rcases hsc : scanRefs env s fn i fp refs with _ | _ | _
        · simp only [hsc] at h
          simp only [(scanRefs_mono hle refs).1 hsc]
          rcases Option.map_eq_some'.mp h with ⟨f, hf, hfact⟩
          obtain ⟨f', hf', hsub⟩ := ih f hf
          refine ⟨insert i f', ?_, ?_⟩
          · rw [hf']; rfl
          · rw [← hfact]
            exact Finset.insert_subset_insert i hsub
        · simp only [hsc] at h
          rcases (scanRefs_mono hle refs).2 hsc with hsc' | hsc'
          · simp only [hsc']
            obtain ⟨f', hf', hsub⟩ := ih fact h
            refine ⟨insert i f', ?_, ?_⟩
            · rw [hf']; rfl
            · exact Finset.Subset.trans hsub (Finset.subset_insert i f')
          · simp only [hsc']
            exact ih fact h
        · simp only [hsc] at h
          exact Option.noConfusion h
    · simp only [hn, Bool.not_false, if_true] at h ⊢
      exact ih fact h

theorem checkParams_sub {env : Env} {s : Store} {fn : Func} :
    ∀ pl fact, checkParams env s fn pl = some fact →
      ∀ j ∈ fact, ∃ p, (j, p) ∈ pl ∧ isNillable p.type = true := by
  intro pl
  induction pl with
  | nil =>
    intro fact h j hj
    simp only [checkParams, Option.some.injEq] at h
    rw [← h] at hj
    exact absurd hj (Finset.not_mem_empty j)
  | cons ip rest ih =>
    obtain ⟨i, fp⟩ := ip
    intro fact h j hj
    simp only [checkParams] at h
    by_cases hn : isNillable fp.type
    · simp only [hn, Bool.not_true, Bool.false_eq_true, if_false] at h
      rcases href : fp.referrers with _ | refs
      · simp only [href] at h
        obtain ⟨p, hmem, hp⟩ := ih fact h j hj
        exact ⟨p, List.mem_cons_of_mem _ hmem, hp⟩
      · simp only [href] at h
        rcases hsc : scanRefs env s fn i fp refs with _ | _ | _
        · simp only [hsc] at h
          rcases Option.map_eq_some'.mp h with ⟨f, hf, hfact⟩
          rw [← hfact] at hj
          rcases Finset.mem_insert.mp hj with hji | hjf
          · exact ⟨fp, by rw [hji]; exact List.mem_cons_self _ _, hn⟩
          · obtain ⟨p, hmem, hp⟩ := ih f hf j hjf
            exact ⟨p, List.mem_cons_of_mem _ hmem, hp⟩
        · simp only [hsc] at h
          obtain ⟨p, hmem, hp⟩ := ih fact h j hj
          exact ⟨p, List.mem_cons_of_mem _ hmem, hp⟩
        · simp only [hsc] at h
          exact Option.noConfusion h
    · simp only [hn, Bool.not_false, if_true] at h
      obtain ⟨p, hmem, hp⟩ := ih fact h j hj
      exact ⟨p, List.mem_cons_of_mem _ hmem, hp⟩

theorem scanRefs_not_aborted {env : Env} {s : Store} {fn : Func} {i : Nat} {fp : Param} :
    ∀ l, (∀ r ∈ l, abortInstr env r = false) → scanRefs env s fn i fp l ≠ .aborted := by
  intro l
  induction l with
  | nil => intro _ h; exact ScanResult.noConfusion h
  | cons r rest ih =>
    intro hab h
    rcases hc : classify env s fn i fp r with _ | _ | _
    · rw [scanRefs, hc] at h
      exact ScanResult.noConfusion h
    · rw [scanRefs, hc] at h
      exact ih (fun r' hr' => hab r' (List.mem_cons_of_mem _ hr')) h
    · have habt := (classify_abort_iff env s fn i fp r).mp hc
      rw [hab r (List.mem_cons_self _ _)] at habt
      exact Bool.noConfusion habt

theorem checkParams_isSome {env : Env} {s : Store} {fn : Func} :
    ∀ pl, (∀ ip ∈ pl, ∀ r ∈ (ip : Nat × Param).2.referrers.getD [], abortInstr env r = false) →
      checkParams env s fn pl ≠ none := by
  intro pl
  induction pl with
  | nil => intro _ h; rw [checkParams] at h; exact Option.noConfusion h
  | cons ip rest ih =>
    obtain ⟨i, fp⟩ := ip
    intro hab h
    have hrest : ∀ ip ∈ rest, ∀ r ∈ (ip : Nat × Param).2.referrers.getD [], abortInstr env r = false :=
      fun ip hip => hab ip (List.mem_cons_of_mem _ hip)
    simp only [checkParams] at h
    by_cases hn : isNillable fp.type
    · simp only [hn, Bool.not_true, Bool.false_eq_true, if_false] at h
      rcases href : fp.referrers with _ | refs
      · simp only [href] at h
        exact ih hrest h
      · simp only [href] at h
        have habr : ∀ r ∈ refs, abortInstr env r = false := by
          have hthis := hab (i, fp) (List.mem_cons_self _ _)
          rw [href] at hthis
          exact hthis
        rcases hsc : scanRefs env s fn i fp refs with _ | _ | _
        · simp only [hsc] at h
          rcases hcp : checkParams env s fn rest with _ | f
          · exact ih hrest hcp
          · rw [hcp] at h
            exact Option.noConfusion h
        · simp only [hsc] at h
          exact ih hrest h
        · exact scanRefs_not_aborted refs habr hsc
    · simp only [hn, Bool.not_false, if_true] at h
      exact ih hrest h

theorem checkFuncFact_def (env : Env) (s : Store) (fn : Func) :
    checkFuncFact env s fn = checkParams env s fn fn.params.enum := rfl

theorem checkFunc_cases (env : Env) (store : Store) (fn : Func) :
    (checkFunc env store fn).1 = store ∨
    ∃ o fact, fn.obj = some o ∧ checkFuncFact env store fn = some fact ∧ fact ≠ ∅ ∧
      (checkFunc env store fn).1 = exportFact store o fact := by
  rcases hf : checkFuncFact env store fn with _ | fact
  · left
    simp only [checkFunc, hf]
  · by_cases he : fact = ∅
    · left
      simp only [checkFunc, hf]
      rw [if_pos he]
    · rcases ho : fn.obj with _ | o
      · left
        simp only [checkFunc, hf, ho]
        rw [if_neg he]
      · right
        refine ⟨o, fact, rfl, rfl, he, ?_⟩
        simp only [checkFunc, hf, ho]
        rw [if_neg he]
        rcases hso : store o with _ | old
        · simp only [hso]
        · simp only [hso]
          by_cases hne : old ≠ fact
          · rw [if_pos hne]
          · rw [if_neg hne]

theorem checkFunc_storeLe {env : Env} {store : Store} {fn : Func}
    (hcov : ∀ o fact old, fn.obj = some o → checkFuncFact env store fn = some fact →
      store o = some old → old ⊆ fact) :
    StoreLe store (checkFunc env store fn).1 := by
  rcases checkFunc_cases env store fn with heq | ⟨o, fact, hobj, hfact, _hne, heq⟩
  · rw [heq]
    exact StoreLe.rfl store
  · rw [heq]
    intro o' f hf
    by_cases ho' : o' = o
    · subst ho'
      exact ⟨fact, by simp [exportFact], hcov o' fact f hobj hfact hf⟩
    · exact ⟨f, by simp [exportFact, ho', hf], Finset.Subset.refl f⟩

theorem checkFunc_changed {env : Env} {store : Store} {fn : Func}
    (hnab : checkFuncFact env store fn ≠ none)
    (hch : (checkFunc env store fn).2 = true) :
    ∃ o old fact, fn.obj = some o ∧ store o = some old ∧
      checkFuncFact env store fn = some fact ∧ old ≠ fact ∧
      (checkFunc env store fn).1 = exportFact store o fact := by
  rcases hf : checkFuncFact env store fn with _ | fact
  · exact absurd hf hnab
  · by_cases he : fact = ∅
    · exfalso
      simp only [checkFunc, hf] at hch
      rw [if_pos he] at hch
      exact Bool.noConfusion hch
    · rcases ho : fn.obj with _ | o
      · exfalso
        simp only [checkFunc, hf, ho] at hch
        rw [if_neg he] at hch
        exact Bool.noConfusion hch
      · rcases hso : store o with _ | old
        · exfalso
          simp only [checkFunc, hf, ho, hso] at hch
          rw [if_neg he] at hch
          exact Bool.noConfusion hch
        · by_cases hne : old ≠ fact
          · refine ⟨o, old, fact, rfl, hso, rfl, hne, ?_⟩
            simp only [checkFunc, hf, ho, hso]
            rw [if_neg he, if_pos hne]
          · exfalso
            simp only [checkFunc, hf, ho, hso] at hch
            rw [if_neg he, if_neg hne] at hch
            exact Bool.noConfusion hch

theorem inv_cov {env : Env} {fns : List Func} {store : Store} (hinv : Inv env fns store)
    {fn : Func} (hfn : fn ∈ fns) :
    ∀ o fact old, fn.obj = some o → checkFuncFact env store fn = some fact →
      store o = some old → old ⊆ fact := by
  intro o fact old hobj hfact hold
  obtain ⟨s0, hs0le, hs0⟩ := hinv fn hfn o hobj old hold
  rw [checkFuncFact_def] at hs0 hfact
  obtain ⟨fact', hfact', hsub⟩ := checkParams_mono hs0le fn.params.enum old hs0
  rw [hfact] at hfact'
  injection hfact' with hfact'
  rw [hfact']
  exact hsub

theorem inv_checkFunc {env : Env} {fns : List Func} {store : Store} {fn : Func}
    (hdist : ObjsDistinct fns) (hfn : fn ∈ fns) (hinv : Inv env fns store) :
    Inv env fns (checkFunc env store fn).1 := by
  have hle : StoreLe store (checkFunc env store fn).1 :=
    checkFunc_storeLe (inv_cov hinv hfn)
  rcases checkFunc_cases env store fn with heq | ⟨o, fact, hobj, hfact, _hne, heq⟩
  · rw [heq]
    exact hinv
  · rw [heq] at hle ⊢
    intro fn2 hfn2 o2 hobj2 old2 hold2
    by_cases ho2 : o2 = o
    · subst ho2
      have hfneq : fn2 = fn := hdist fn2 hfn2 fn hfn o2 hobj2 hobj
      subst hfneq
      have hold2' : fact = old2 := by
        simpa [exportFact] using hold2
      refine ⟨store, hle, ?_⟩
      rw [← hold2']
      exact hfact
    · have hold2' : store o2 = some old2 := by
        simpa [exportFact, ho2] using hold2
      obtain ⟨s0, hs0le, hs0⟩ := hinv fn2 hfn2 o2 hobj2 old2 hold2'
      exact ⟨s0, StoreLe.trans hs0le hle, hs0⟩

theorem nillable_checkFunc {env : Env} {fns : List Func} {store : Store} {fn : Func}
    (hdist : ObjsDistinct fns) (hfn : fn ∈ fns) (hJ : NillableInv fns store) :
    NillableInv fns (checkFunc env store fn).1 := by
  rcases checkFunc_cases env store fn with heq | ⟨o, fact, hobj, hfact, _hne, heq⟩
  · rw [heq]
    exact hJ
  · rw [heq]
    intro fn2 hfn2 o2 hobj2 f hf j hj
    by_cases ho2 : o2 = o
    · subst ho2
      have hfneq : fn2 = fn := hdist fn2 hfn2 fn hfn o2 hobj2 hobj
      subst hfneq
      have hfe : fact = f := by
        simpa [exportFact] using hf
      rw [← hfe] at hj
      rw [checkFuncFact_def] at hfact
      obtain ⟨p, hmem, hp⟩ := checkParams_sub _ fact hfact j hj
      refine ⟨p, ?_, hp⟩
      rw [List.get?_eq_getElem?]
      exact List.mk_mem_enum_iff_getElem?.mp hmem
    · have hf' : store o2 = some f := by
        simpa [exportFact, ho2] using hf
      exact hJ fn2 hfn2 o2 hobj2 f hf' j hj

theorem sweep_cons (env : Env) (fn : Func) (rest : List Func) (store : Store) :
    sweep env (fn :: rest) store =
      ((sweep env rest (checkFunc env store fn).1).1,
        if (checkFunc env store fn).2 then (sweep env rest (checkFunc env store fn).1).2 + 1
        else (sweep env rest (checkFunc env store fn).1).2) := rfl

theorem sweep_props {env : Env} {fns : List Func} (hdist : ObjsDistinct fns) :
    ∀ l store, (∀ fn ∈ l, fn ∈ fns) → Inv env fns store →
      StoreLe store (sweep env l store).1 ∧ Inv env fns (sweep env l store).1 := by
  intro l
  induction l with
  | nil =>
    intro store _ hinv
    exact ⟨StoreLe.rfl store, hinv⟩
  | cons fn rest ih =>
    intro store hsubl hinv
    have hfn : fn ∈ fns := hsubl fn (List.mem_cons_self _ _)
    have hrest : ∀ g ∈ rest, g ∈ fns := fun g hg => hsubl g (List.mem_cons_of_mem _ hg)
    have hle1 : StoreLe store (checkFunc env store fn).1 :=
      checkFunc_storeLe (inv_cov hinv hfn)
    have hinv1 : Inv env fns (checkFunc env store fn).1 := inv_checkFunc hdist hfn hinv
    obtain ⟨hle2, hinv2⟩ := ih (checkFunc env store fn).1 hrest hinv1
    rw [sweep_cons]
    exact ⟨StoreLe.trans hle1 hle2, hinv2⟩

theorem sweep_nillable {env : Env} {fns : List Func} (hdist : ObjsDistinct fns) :
    ∀ l store, (∀ fn ∈ l, fn ∈ fns) → NillableInv fns store →
      NillableInv fns (sweep env l store).1 := by
  intro l
  induction l with
  | nil => intro store _ hJ; exact hJ
  | cons fn rest ih =>
    intro store hsubl hJ
    have hfn : fn ∈ fns := hsubl fn (List.mem_cons_self _ _)
    have hrest : ∀ g ∈ rest, g ∈ fns := fun g hg => hsubl g (List.mem_cons_of_mem _ hg)
    rw [sweep_cons]
    exact ih (checkFunc env store fn).1 hrest (nillable_checkFunc hdist hfn hJ)

theorem entryCard_mono {s s' : Store} (hle : StoreLe s s') (fn : Func) :
    entryCard s fn ≤ entryCard s' fn := by
  unfold entryCard
  rcases ho : fn.obj with _ | o
  · exact Nat.le_refl 0
  · rcases hso : s o with _ | f
    · simp only [hso]
      exact Nat.zero_le _
    · obtain ⟨f', hso', hsub⟩ := hle o f hso
      simp only [hso, hso']
      exact Finset.card_le_card hsub

theorem mu_mono {fns : List Func} {s s' : Store} (hle : StoreLe s s') :
    mu fns s ≤ mu fns s' :=
  List.sum_le_sum fun fn _ => entryCard_mono hle fn

theorem mu_lt_of_mem {fns : List Func} {s s' : Store}
    (hle : ∀ g ∈ fns, entryCard s g ≤ entryCard s' g) {fn : Func} (hfn : fn ∈ fns)
    (hlt : entryCard s fn < entryCard s' fn) : mu fns s < mu fns s' :=
  List.sum_lt_sum _ _ hle ⟨fn, hfn, hlt⟩

theorem enumFrom_filter_length (p : Param → Bool) :
    ∀ (l : List Param) (n : Nat),
      ((List.enumFrom n l).filter fun ip => p ip.2).length = (l.filter p).length := by
  intro l
  induction l with
  | nil => intro n; rfl
  | cons a l ih =>
    intro n
    simp only [List.enumFrom, List.filter_cons]
    by_cases hp : p a
    · simp only [hp, if_true, List.length_cons]
      exact congrArg Nat.succ (ih (n + 1))
    · simp only [hp, if_false]
      exact ih (n + 1)

theorem fact_card_le {fn : Func} {f : Fact}
    (hsub : ∀ j ∈ f, ∃ p, fn.params.get? j = some p ∧ isNillable p.type = true) :
    f.card ≤ nillableCount fn := by
  have hsubset : f ⊆
      ((fn.params.enum.filter fun ip => isNillable ip.2.type).map Prod.fst).toFinset := by
    intro j hj
    obtain ⟨p, hget, hp⟩ := hsub j hj
    rw [List.mem_toFinset]
    have hmem : (j, p) ∈ fn.params.enum.filter fun ip => isNillable ip.2.type := by
      refine List.mem_filter.mpr ⟨?_, hp⟩
      rw [List.get?_eq_getElem?] at hget
      exact List.mk_mem_enum_iff_getElem?.mpr hget
    exact List.mem_map_of_mem Prod.fst hmem
  calc f.card
      ≤ ((fn.params.enum.filter fun ip => isNillable ip.2.type).map Prod.fst).toFinset.card :=
        Finset.card_le_card hsubset
    _ ≤ ((fn.params.enum.filter fun ip => isNillable ip.2.type).map Prod.fst).length :=
        List.toFinset_card_le _
    _ = (fn.params.enum.filter fun ip => isNillable ip.2.type).length := List.length_map _ _
    _ = nillableCount fn := enumFrom_filter_length (fun q => isNillable q.type) fn.params 0

theorem mu_le_total {fns : List Func} {store : Store} (hJ : NillableInv fns store) :
    mu fns store ≤ totalNillable fns :=
  List.sum_le_sum fun fn hfn => by
    unfold entryCard
    rcases ho : fn.obj with _ | o
    · exact Nat.zero_le _
    · rcases hso : store o with _ | f
      · simp only [hso]
        exact Nat.zero_le _
      · simp only [hso]
        exact fact_card_le (hJ fn hfn o ho f hso)

theorem checkFuncFact_isSome {env : Env} {fns : List Func} {store : Store} {fn : Func}
    (hnab : NoAbortCalls env fns) (hfn : fn ∈ fns) :
    checkFuncFact env store fn ≠ none := by
  rw [checkFuncFact_def]
  apply checkParams_isSome
  intro ip hip r hr
  obtain ⟨i, p⟩ := ip
  have hget : fn.params[i]? = some p := List.mk_mem_enum_iff_getElem?.mp hip
  have hp : p ∈ fn.params := by
    rw [← List.get?_eq_getElem?] at hget
    exact List.get?_mem hget
  exact hnab fn hfn p hp r hr

theorem sweep_mu_lt {env : Env} {fns : List Func} (hdist : ObjsDistinct fns)
    (hnab : NoAbortCalls env fns) :
    ∀ l store, (∀ fn ∈ l, fn ∈ fns) → Inv env fns store →
      (sweep env l store).2 ≠ 0 → mu fns store < mu fns (sweep env l store).1 := by
  intro l
  induction l with
  | nil =>
    intro store _ _ hcc
    exact absurd rfl hcc
  | cons fn rest ih =>
    intro store hsubl hinv hcc
    have hfn : fn ∈ fns := hsubl fn (List.mem_cons_self _ _)
    have hrest : ∀ g ∈ rest, g ∈ fns := fun g hg => hsubl g (List.mem_cons_of_mem _ hg)
    have hle1 : StoreLe store (checkFunc env store fn).1 :=
      checkFunc_storeLe (inv_cov hinv hfn)
    have hinv1 : Inv env fns (checkFunc env store fn).1 := inv_checkFunc hdist hfn hinv
    obtain ⟨hle2, _hinv2⟩ := sweep_props hdist rest (checkFunc env store fn).1 hrest hinv1
    rw [sweep_cons] at hcc ⊢
    rcases hch : (checkFunc env store fn).2 with _ | _
    · rw [hch] at hcc
      simp only [Bool.false_eq_true, if_false] at hcc
      exact lt_of_le_of_lt (mu_mono hle1) (ih (checkFunc env store fn).1 hrest hinv1 hcc)
    · obtain ⟨o, old, fact, hobj, hso, hfact, hne, heq⟩ :=
        checkFunc_changed (checkFuncFact_isSome hnab hfn) hch
      have hsub' : old ⊆ fact := inv_cov hinv hfn o fact old hobj hfact hso
      have hcard : old.card < fact.card :=
        Finset.card_lt_card (HasSubset.Subset.ssubset_of_ne hsub' hne)
      have hec : entryCard store fn < entryCard (checkFunc env store fn).1 fn := by
        unfold entryCard
        simp only [hobj, hso, heq, exportFact, if_pos rfl]
        exact hcard
      have h1 : mu fns store < mu fns (checkFunc env store fn).1 :=
        mu_lt_of_mem (fun g _ => entryCard_mono hle1 g) hfn hec
      exact lt_of_lt_of_le h1 (mu_mono hle2)

theorem runLoop_succ (env : Env) (fns : List Func) (fuel : Nat) (store : Store) :
    runLoop env fns (fuel + 1) store =
      if (sweep env fns store).2 = 0 then some (sweep env fns store).1
      else runLoop env fns fuel (sweep env fns store).1 := rfl

theorem runLoop_total {env : Env} {fns : List Func} (hdist : ObjsDistinct fns)
    (hnab : NoAbortCalls env fns) :
    ∀ fuel store, Inv env fns store → NillableInv fns store →
      totalNillable fns + 1 ≤ fuel + mu fns store →
      ∃ s, runLoop env fns fuel store = some s := by
  intro fuel
  induction fuel with
  | zero =>
    intro store _hinv hJ hfuel
    exfalso
    have hle := mu_le_total hJ
    omega
  | succ fuel ih =>
    intro store hinv hJ hfuel
    by_cases hcc : (sweep env fns store).2 = 0
    · exact ⟨(sweep env fns store).1, by rw [runLoop_succ, if_pos hcc]⟩
    · obtain ⟨_hle, hinv'⟩ := sweep_props hdist fns store (fun _ h => h) hinv
      have hJ' := @sweep_nillable env fns hdist fns store (fun _ h => h) hJ
      have hlt := sweep_mu_lt hdist hnab fns store (fun _ h => h) hinv hcc
      have hfuel' : totalNillable fns + 1 ≤ fuel + mu fns (sweep env fns store).1 := by omega
      obtain ⟨s, hs⟩ := ih (sweep env fns store).1 hinv' hJ' hfuel'
      refine ⟨s, ?_⟩
      rw [runLoop_succ, if_neg hcc]
      exact hs

theorem runLoop_nillable {env : Env} {fns : List Func} (hdist : ObjsDistinct fns) :
    ∀ fuel store s, NillableInv fns store → runLoop env fns fuel store = some s →
      NillableInv fns s := by
  intro fuel
  induction fuel with
  | zero =>
    intro store s _ h
    rw [runLoop] at h
    exact Option.noConfusion h
  | succ fuel ih =>
    intro store s hJ h
    rw [runLoop_succ] at h
    by_cases hcc : (sweep env fns store).2 = 0
    · rw [if_pos hcc] at h
      injection h with h
      rw [← h]
      exact sweep_nillable hdist fns store (fun _ hx => hx) hJ
    · rw [if_neg hcc] at h
      exact ih _ s (sweep_nillable hdist fns store (fun _ hx => hx) hJ) h

theorem initial_inv {env : Env} {fns : List Func} {store : Store}
    (hinit : InitLocalNone fns store) : Inv env fns store := by
  intro fn hfn o hobj old hold
  rw [hinit fn hfn o hobj] at hold
  exact Option.noConfusion hold

theorem initial_nillable {fns : List Func} {store : Store}
    (hinit : InitLocalNone fns store) : NillableInv fns store := by
  intro fn hfn o hobj f hf
  rw [hinit fn hfn o hobj] at hf
  exact Option.noConfusion hf

theorem sweepIter_inv {env : Env} {fns : List Func} {store : Store} (hdist : ObjsDistinct fns)
    (hinv : Inv env fns store) : ∀ n, Inv env fns (sweepIter env fns n store) := by
  intro n
  induction n with
  | zero => exact hinv
  | succ n ih =>
    rw [sweepIter]
    exact (sweep_props hdist fns (sweepIter env fns n store) (fun _ h => h) ih).2

/-!
## Concrete programs used by the counterexamples and witnesses
-/

/-- The empty fact store. -/
def emptyStore : Store := fun _ => none

/-- A pass environment where every package's `pkgDone` fact is available. -/
def envAllDone : Env := ⟨0, fun _ => true⟩

/-- A pass environment where no package's `pkgDone` fact is available. -/
def envNoDone : Env := ⟨0, fun _ => false⟩

/-- The SSA value of the second parameter `b` of `funcF` below. -/
def bValue : Value := .param 10

/-- The call `G(b)` inside `funcF`: a static call to the local function with
object 1, passing `b` as the only argument. -/
def callGb : Instr := .callI false (some ⟨1, 0⟩) [bValue] 0

/-- First parameter `a` of `funcF` (no referrers). -/
def paramA : Param := ⟨.pointer, .param 9, none⟩

/-- Second parameter `b` of `funcF`; its only referrer is the call `G(b)`. -/
def paramB : Param := ⟨.pointer, bValue, some [callGb]⟩

/-- `func F(a, b *int) { G(b) }`, for a callee `G(p *int)` whose recorded
PanicArgs set is `{0}`. -/
def funcF : Func := ⟨some 2, [paramA, paramB], [⟨none, .noIf⟩]⟩

/-- `func F1(b *int) { G(b) }`: the same call but with `b` at parameter
index 0. -/
def funcF1 : Func := ⟨some 2, [paramB], [⟨none, .noIf⟩]⟩

/-- A store recording PanicArgs `{0}` for the callee object 1. -/
def storeG : Store := fun o => if o = 1 then some {0} else none

/-- A call to a function of a foreign package (package 7, object 5) with a
parameter as its only argument. -/
def foreignCall : Instr := .callI false (some ⟨5, 7⟩) [.param 20] 0

/-- `func H(p *T) { foreign.G(p) }` where `foreign`'s `pkgDone` fact never
becomes available. -/
def funcH : Func := ⟨some 3, [⟨.pointer, .param 20, some [foreignCall]⟩], [⟨none, .noIf⟩]⟩

/-- `func W(p *T) { *p }`: one nillable parameter dereferenced. -/
def funcW : Func := ⟨some 0, [⟨.pointer, .param 0, some [.unOp true (.param 0) 0]⟩], [⟨none, .noIf⟩]⟩

/-- `func W7(x int, p *int) { *p }`: a non-nillable first parameter next to
a dereferenced pointer parameter; object 6. -/
def funcW7 : Func :=
  ⟨some 6, [⟨.basic, .param 40, none⟩, ⟨.pointer, .param 41, some [.unOp true (.param 41) 0]⟩],
    [⟨none, .noIf⟩]⟩

/-- Blocks for the C4 failing input: block 0 ends in `if p == nil` with
successors 2 (true) and 1 (false); blocks 1 and 2 are dominated by 0. -/
def blocksC4 : List Block :=
  [⟨none, .ifT (.binop .eq (.constV 0 true) (.param 3)) 2 1⟩, ⟨some 0, .noIf⟩, ⟨some 0, .noIf⟩]

/-!
## The claims
-/

/-- C1: evaluation of the code at the failing input. In
`func F(a, b *int) { G(b) }` with `G`'s recorded PanicArgs `S = {0}`, the
fact index `k = 0` satisfies `k < len(args)`, `args[k] == b`, and the
call's block is not nil-checked for `b`, so the claim requires the
classifier to report a trap and flag index 1. The code instead compares
the caller's parameter index `i = 1` against `len(args) = 1` and skips the
fact index, so `F`'s computed fact is empty. With the same call but `b` at
caller index 0 (`funcF1`) the trap is reported, isolating the wrong guard
variable as the only difference. -/
theorem c1_call_index_guard :
    ((0 : Nat) ∈ ({0} : Fact) ∧ 0 < [bValue].length ∧ [bValue].get? 0 = some paramB.value ∧
      nilCheckedHere funcF paramB 0 = false ∧ storeG 1 = some {0}) ∧
    checkFuncFact envNoDone storeG funcF = some ∅ ∧
    checkFuncFact envNoDone storeG funcF1 = some {0} := by decide

/-- C2 counterexample: with one source function `H` whose only referrer is
a call to a foreign callee whose `pkgDone` sentinel is never seen,
`Σ_F |nillable-params(F)| + 1 = 2`, yet the fixed-point loop does not reach
`cc == 0` within 2 sweeps (nor within 10): `checkFunc` returns `true` from
its missing-`pkgDone` branch on every sweep, so the loop never terminates,
and no empty-PanicArgs fallback result is produced. -/
theorem c2_counterexample :
    totalNillable [funcH] + 1 = 2 ∧
    runLoop envNoDone [funcH] (totalNillable [funcH] + 1) emptyStore = none ∧
    runLoop envNoDone [funcH] 10 emptyStore = none := by
  refine ⟨rfl, rfl, rfl⟩

/-- C2 (amended): the interprocedural fixed-point loop terminates in at
most `Σ_F |nillable-params(F)| + 1` sweeps provided no referrer of any
scanned parameter is a call to a foreign callee whose `pkgDone` sentinel is
unavailable (and functions have distinct objects, with no pre-recorded
facts for them). When such a callee exists, the scan aborts with "changed"
on every sweep and the loop does not terminate; the documented
empty-PanicArgs fallback is not implemented. -/
theorem c2_termination (env : Env) (fns : List Func) (store0 : Store)
    (hdist : ObjsDistinct fns) (hnab : NoAbortCalls env fns)
    (hinit : InitLocalNone fns store0) :
    ∃ s, runLoop env fns (totalNillable fns + 1) store0 = some s :=
  runLoop_total hdist hnab (totalNillable fns + 1) store0 (initial_inv hinit)
    (initial_nillable hinit) (by omega)

/-- C2 witness: the amended termination theorem applied to the concrete
one-function program `W(p *T) { *p }`. -/
theorem c2_witness :
    ObjsDistinct [funcW] ∧ NoAbortCalls envAllDone [funcW] ∧
    InitLocalNone [funcW] emptyStore ∧
    (runLoop envAllDone [funcW] (totalNillable [funcW] + 1) emptyStore).isSome = true := by
  have hdist : ObjsDistinct [funcW] := by
    intro f1 h1 f2 h2 o _ _
    rw [List.mem_singleton] at h1 h2
    rw [h1, h2]
  have hnab : NoAbortCalls envAllDone [funcW] := by
    unfold NoAbortCalls
    decide
  have hinit : InitLocalNone [funcW] emptyStore := fun _ _ _ _ => rfl
  obtain ⟨s, hs⟩ := c2_termination envAllDone [funcW] emptyStore hdist hnab hinit
  exact ⟨hdist, hnab, hinit, by rw [hs]; rfl⟩

/-- C3 counterexample: a channel type. Its underlying form is a channel, so
the claim requires `isNillable` to return true, but the source's switch
lists only slice, interface, map and pointer, and returns false. -/
theorem c3_counterexample :
    underlying GoType.chan_ = GoType.chan_ ∧ isNillable GoType.chan_ = false ∧
    isNillableSpec GoType.chan_ = true ∧
    isNillable GoType.chan_ ≠ isNillableSpec GoType.chan_ := by decide

/-- C3 (amended): `isNillable(T)` returns true iff `T`'s underlying form is
one of pointer, interface, map, or slice; channel types and function types
are excluded. -/
theorem c3_isNillable_amended (t : GoType) :
    isNillable t = true ↔
      (underlying t = .pointer ∨ underlying t = .interface_ ∨ underlying t = .map_ ∨
        underlying t = .slice) := by
  unfold isNillable
  rcases h : underlying t <;> simp

/-- C4: evaluation of the code at the failing input. The visited set `{1}`
already contains block 1, so the claim requires `isNilChecked` to return
false; but the source's guard `vis.Or(visited, vis) == visited` compares
two distinct `*big.Int` pointers and is always false, so the walk proceeds
to the dominator test and returns true (block 1 is `Succs[1]` of its
dominator's `p == nil` branch). -/
theorem c4_visited_guard_broken :
    (1 : Nat) ∈ ({1} : Finset Nat) ∧
    isNilChecked blocksC4 (.param 3) 1 {1} 4 = true := by decide

/-- The condition under which the dominator test of `isNilChecked` fires: the
block's terminator is an `If` whose condition is an EQ or NEQ comparison
with a constant-nil literal on exactly one side and the parameter value on
the other. -/
def nilCmpTerm (t : Term) (v : Value) : Prop :=
  ∃ op x y s0 s1, t = .ifT (.binop op x y) s0 s1 ∧ (op = CmpOp.eq ∨ op = CmpOp.neq) ∧
    ((isNil x && y == v) || (isNil y && x == v)) = true

theorem scanRefs_all_noEvidence {env : Env} {store : Store} {fn : Func} {i : Nat} {fp : Param} :
    ∀ refs, (∀ r ∈ refs, classify env store fn i fp r = .noEvidence) →
      scanRefs env store fn i fp refs = .notFound := by
  intro refs
  induction refs with
  | nil => intro _; rfl
  | cons r rest ih =>
    intro hall
    simp only [scanRefs, hall r (List.mem_cons_self _ _)]
    exact ih fun r' hr' => hall r' (List.mem_cons_of_mem _ hr')

theorem scanRefs_found_first {env : Env} {store : Store} {fn : Func} {i : Nat} {fp : Param}
    {r0 : Instr} (hr : classify env store fn i fp r0 = .evidence) :
    ∀ pre, (∀ r ∈ pre, classify env store fn i fp r = .noEvidence) →
      ∀ post, scanRefs env store fn i fp (pre ++ r0 :: post) = .found := by
  intro pre
  induction pre with
  | nil =>
    intro _ post
    simp only [List.nil_append, scanRefs, hr]
  | cons a pre ih =>
    intro hall post
    simp only [List.cons_append, scanRefs, hall a (List.mem_cons_self _ _)]
    exact ih (fun r hrr => hall r (List.mem_cons_of_mem _ hrr)) post

/-- C5: one step of the dominator walk. If the immediate dominator `D` of
block `b` ends in an `If` whose condition compares the parameter `v` with a
constant-nil literal, then for EQ the oracle returns exactly `b == D.Succs[1]`
and for NEQ exactly `b == D.Succs[0]`; for any other terminator, condition
shape, or operand pair the walk ascends to the dominator with `b` added to
the visited set. -/
theorem c5_dominator_step (blocks : List Block) (v : Value) (b D : Nat)
    (visited : Finset Nat) (fuel : Nat) (bb bib : Block)
    (hb : blocks.get? b = some bb) (hidom : bb.idom = some D)
    (hD : blocks.get? D = some bib) :
    (∀ x y s0 s1, bib.term = .ifT (.binop .eq x y) s0 s1 →
      ((isNil x && y == v) || (isNil y && x == v)) = true →
      isNilChecked blocks v b visited (fuel + 1) = (b == s1)) ∧
    (∀ x y s0 s1, bib.term = .ifT (.binop .neq x y) s0 s1 →
      ((isNil x && y == v) || (isNil y && x == v)) = true →
      isNilChecked blocks v b visited (fuel + 1) = (b == s0)) ∧
    (¬ nilCmpTerm bib.term v →
      isNilChecked blocks v b visited (fuel + 1) =
        isNilChecked blocks v D (visited ∪ {b}) fuel) := by
  have hbind : (blocks.get? b).bind (fun bb => bb.idom) = some D := by
    rw [hb]
    simpa using hidom
  refine ⟨?_, ?_, ?_⟩
  · intro x y s0 s1 ht hcond
    simp only [isNilChecked, bigIntPtrEq, Bool.false_eq_true, if_false, hbind, hD, ht, hcond,
      if_true]
  · intro x y s0 s1 ht hcond
    simp only [isNilChecked, bigIntPtrEq, Bool.false_eq_true, if_false, hbind, hD, ht, hcond,
      if_true]
  · intro hnc
    simp only [isNilChecked, bigIntPtrEq, Bool.false_eq_true, if_false, hbind, hD]
    rcases ht : bib.term with ⟨cond, s0, s1⟩ | _
    · rcases cond with ⟨op, x, y⟩ | _
      · rcases op with _ | _ | _
        · have hcond : ((isNil x && y == v) || (isNil y && x == v)) = false := by
            by_contra hc
            rw [Bool.not_eq_false] at hc
            exact hnc ⟨.eq, x, y, s0, s1, ht, Or.inl rfl, hc⟩
          simp only [hcond, Bool.false_eq_true, if_false]
        · have hcond : ((isNil x && y == v) || (isNil y && x == v)) = false := by
            by_contra hc
            rw [Bool.not_eq_false] at hc
            exact hnc ⟨.neq, x, y, s0, s1, ht, Or.inr rfl, hc⟩
          simp only [hcond, Bool.false_eq_true, if_false]
        · rfl
      · rfl
    · rfl

/-- Blocks used by the C5 witness: block 0 ends in `if v == nil` with
successors 1 (true) and 2 (false); blocks 1 and 2 have block 0 as their
immediate dominator. -/
def blocksC5 : List Block :=
  [⟨none, .ifT (.binop .eq (.param 0) (.constV 1 true)) 1 2⟩, ⟨some 0, .noIf⟩, ⟨some 0, .noIf⟩]

/-- C5 witness: the dominator-step theorem applied at `blocksC5`, showing
that the false-successor (block 2) of `v == nil` is nil-checked and the
true-successor (block 1) is not. -/
theorem c5_witness :
    blocksC5.get? 2 = some ⟨some 0, .noIf⟩ ∧
    blocksC5.get? 1 = some ⟨some 0, .noIf⟩ ∧
    isNilChecked blocksC5 (.param 0) 2 ∅ (3 + 1) = true ∧
    isNilChecked blocksC5 (.param 0) 1 ∅ (3 + 1) = false := by
  have h2 := (c5_dominator_step blocksC5 (.param 0) 2 0 ∅ 3 ⟨some 0, .noIf⟩
    ⟨none, .ifT (.binop .eq (.param 0) (.constV 1 true)) 1 2⟩ rfl rfl rfl).1
    (.param 0) (.constV 1 true) 1 2 rfl (by decide)
  have h1 := (c5_dominator_step blocksC5 (.param 0) 1 0 ∅ 3 ⟨some 0, .noIf⟩
    ⟨none, .ifT (.binop .eq (.param 0) (.constV 1 true)) 1 2⟩ rfl rfl rfl).1
    (.param 0) (.constV 1 true) 1 2 rfl (by decide)
  refine ⟨rfl, rfl, ?_, ?_⟩
  · rw [h2]
    rfl
  · rw [h1]
    rfl

/-- C6: a two-result (comma-ok) type assertion is never evidence: the
classifier answers `noEvidence` on every comma-ok `TypeAssert`, whatever
its operand; and a parameter all of whose referrers are comma-ok type
assertions is never flagged (its scan yields the empty fact). -/
theorem c6_comma_ok_never_flags (env : Env) (store : Store) (fn : Func) (i : Nat) (fp : Param) :
    (∀ x blk, classify env store fn i fp (.typeAssert x true blk) = .noEvidence) ∧
    (∀ refs, fp.referrers = some refs →
      (∀ r ∈ refs, ∃ x blk, r = .typeAssert x true blk) →
      checkParams env store fn [(i, fp)] = some ∅) := by
  have hcls : ∀ x blk, classify env store fn i fp (.typeAssert x true blk) = .noEvidence := by
    intro x blk
    simp [classify]
  refine ⟨hcls, ?_⟩
  intro refs href hall
  have hscan : scanRefs env store fn i fp refs = .notFound := by
    apply scanRefs_all_noEvidence
    intro r hr
    obtain ⟨x, blk, rfl⟩ := hall r hr
    exact hcls x blk
  simp only [checkParams]
  by_cases hn : isNillable fp.type
  · simp only [hn, Bool.not_true, Bool.false_eq_true, if_false, href, hscan]
  · simp only [hn, Bool.not_false, if_true]

/-- The comma-ok parameter of the C6 witness. -/
def fpOk : Param := ⟨.interface_, .param 30, some [.typeAssert (.param 30) true 0]⟩

/-- `func Ok(i I) { _, _ = i.(J) }`: the only referrer of `i` is a two-result
type assertion. -/
def fnOk : Func := ⟨some 4, [fpOk], [⟨none, .noIf⟩]⟩

/-- C6 witness: the comma-ok theorem applied to the concrete function whose
interface parameter is consumed only by a two-result assertion. -/
theorem c6_witness :
    fpOk.referrers = some [.typeAssert (.param 30) true 0] ∧
    checkParams envAllDone emptyStore fnOk [(0, fpOk)] = some ∅ :=
  ⟨rfl, (c6_comma_ok_never_flags envAllDone emptyStore fnOk 0 fpOk).2 _ rfl
    (fun r hr => by rw [List.mem_singleton] at hr; exact ⟨.param 30, 0, hr⟩)⟩

/-- C7: in the store produced by any terminating run of the fixed-point
loop from a clean initial store, every index recorded for a source function
is the index of a nillable parameter; in particular a parameter of
non-nillable type is never a member of the recorded PanicArgs set. -/
theorem c7_non_nillable_never_flagged (env : Env) (fns : List Func) (fuel : Nat)
    (store0 s : Store) (hdist : ObjsDistinct fns) (hinit : InitLocalNone fns store0)
    (hrun : runLoop env fns fuel store0 = some s) :
    ∀ fn ∈ fns, ∀ o, fn.obj = some o → ∀ f, s o = some f →
      ∀ j p, fn.params.get? j = some p → isNillable p.type = false → j ∉ f := by
  intro fn hfn o hobj f hf j p hget hty hj
  obtain ⟨p', hget', hp'⟩ := runLoop_nillable hdist fuel store0 s (initial_nillable hinit) hrun
    fn hfn o hobj f hf j hj
  rw [hget] at hget'
  injection hget' with hget'
  rw [← hget', hty] at hp'
  exact Bool.noConfusion hp'

/-- The store recorded by running the loop on `W7(x int, p *int) { *p }`. -/
def storeW7 : Store := (runLoop envAllDone [funcW7] 2 emptyStore).getD emptyStore

/-- C7 witness: the run on `funcW7` records fact `{1}` for its object, and
the theorem shows the non-nillable parameter index 0 is not in it. -/
theorem c7_witness :
    runLoop envAllDone [funcW7] 2 emptyStore = some storeW7 ∧
    funcW7.params.get? 0 = some ⟨.basic, .param 40, none⟩ ∧
    isNillable GoType.basic = false ∧
    storeW7 6 = some {1} ∧
    0 ∉ ({1} : Fact) := by
  have hdist : ObjsDistinct [funcW7] := by
    intro f1 h1 f2 h2 o _ _
    rw [List.mem_singleton] at h1 h2
    rw [h1, h2]
  have hinit : InitLocalNone [funcW7] emptyStore := fun _ _ _ _ => rfl
  have hstore : storeW7 6 = some {1} := by decide
  refine ⟨rfl, rfl, rfl, hstore, ?_⟩
  exact c7_non_nillable_never_flagged envAllDone [funcW7] 2 emptyStore storeW7 hdist hinit rfl
    funcW7 (List.mem_singleton.mpr rfl) 6 rfl {1} hstore 0 ⟨.basic, .param 40, none⟩ rfl rfl

/-- C8: across one run, the recorded PanicArgs sets grow monotonically:
between any sweep and the next, every recorded fact stays recorded and is a
subset of its successor, so indices once present are never removed. -/
theorem c8_monotone_growth (env : Env) (fns : List Func) (store0 : Store)
    (hdist : ObjsDistinct fns) (hinit : InitLocalNone fns store0) (n : Nat) :
    StoreLe (sweepIter env fns n store0) (sweepIter env fns (n + 1) store0) := by
  have hinv := sweepIter_inv hdist (@initial_inv env fns store0 hinit) n
  rw [sweepIter]
  exact (sweep_props hdist fns (sweepIter env fns n store0) (fun _ h => h) hinv).1

/-- C8 witness: the monotonicity theorem applied to the one-function
program `W`, between the first and second sweep: the fact `{0}` recorded by
sweep 1 is still recorded after sweep 2 and has only grown. -/
theorem c8_witness :
    ObjsDistinct [funcW] ∧ InitLocalNone [funcW] emptyStore ∧
    (sweepIter envAllDone [funcW] 1 emptyStore) 0 = some {0} ∧
    ∃ f', (sweepIter envAllDone [funcW] 2 emptyStore) 0 = some f' ∧ ({0} : Fact) ⊆ f' := by
  have hdist : ObjsDistinct [funcW] := by
    intro f1 h1 f2 h2 o _ _
    rw [List.mem_singleton] at h1 h2
    rw [h1, h2]
  have hinit : InitLocalNone [funcW] emptyStore := fun _ _ _ _ => rfl
  have h1 : (sweepIter envAllDone [funcW] 1 emptyStore) 0 = some {0} := by decide
  exact ⟨hdist, hinit, h1,
    c8_monotone_growth envAllDone [funcW] emptyStore hdist hinit 1 0 {0} h1⟩

/-- C9: the scanner walks a parameter's referrers in order; when every
referrer before `r0` is classified as non-evidence and `r0` is classified
as evidence, the scan reports found whatever comes after `r0` (the
remaining referrers are never consulted), and the parameter's index is
added to the fact exactly once. -/
theorem c9_first_witness_stops (env : Env) (store : Store) (fn : Func) (i : Nat) (fp : Param)
    (pre post : List Instr) (r0 : Instr)
    (hpre : ∀ r ∈ pre, classify env store fn i fp r = .noEvidence)
    (hr : classify env store fn i fp r0 = .evidence)
    (hnil : isNillable fp.type = true)
    (href : fp.referrers = some (pre ++ r0 :: post)) :
    scanRefs env store fn i fp (pre ++ r0 :: post) = .found ∧
    scanRefs env store fn i fp (pre ++ r0 :: post) = scanRefs env store fn i fp (pre ++ [r0]) ∧
    checkParams env store fn [(i, fp)] = some {i} := by
  have hfound := scanRefs_found_first hr pre hpre
  refine ⟨hfound post, (hfound post).trans (hfound []).symm, ?_⟩
  simp only [checkParams, hnil, Bool.not_true, Bool.false_eq_true, if_false, href, hfound post]
  simp

/-- The parameter of the C9 witness: a pointer whose referrer list is an
irrelevant instruction, then a dereference, then a further dereference that
the scan never needs. -/
def fpC9 : Param :=
  ⟨.pointer, .param 50, some [.otherI 0, .unOp true (.param 50) 0, .fieldAddr (.param 50) 0]⟩

/-- The function of the C9 witness. -/
def fnC9 : Func := ⟨some 8, [fpC9], [⟨none, .noIf⟩]⟩

/-- C9 witness: the first-witness theorem applied to `fnC9`: the scan stops
at the dereference and flags index 0 once. -/
theorem c9_witness :
    classify envAllDone emptyStore fnC9 0 fpC9 (.otherI 0) = .noEvidence ∧
    classify envAllDone emptyStore fnC9 0 fpC9 (.unOp true (.param 50) 0) = .evidence ∧
    scanRefs envAllDone emptyStore fnC9 0 fpC9
      ([.otherI 0] ++ .unOp true (.param 50) 0 :: [.fieldAddr (.param 50) 0]) = .found ∧
    checkParams envAllDone emptyStore fnC9 [(0, fpC9)] = some {0} := by
  have hpre : ∀ r ∈ [Instr.otherI 0],
      classify envAllDone emptyStore fnC9 0 fpC9 r = .noEvidence := by
    intro r hr
    rw [List.mem_singleton] at hr
    rw [hr]
    rfl
  have hr : classify envAllDone emptyStore fnC9 0 fpC9 (.unOp true (.param 50) 0) = .evidence := by
    decide
  have h := c9_first_witness_stops envAllDone emptyStore fnC9 0 fpC9 [.otherI 0]
    [.fieldAddr (.param 50) 0] (.unOp true (.param 50) 0) hpre hr (by decide) rfl
  exact ⟨hpre _ (List.mem_singleton.mpr rfl), hr, h.1, h.2.2⟩

/-- C10: the export guard of `checkFunc`. A computed empty fact, or a
function without a source object, leaves the store untouched and reports no
change (so an empty set never overwrites a recorded one, and anonymous or
synthetic functions are never recorded); a non-empty computed fact of a
function with an object is exported under that object. -/
theorem c10_export_guard (env : Env) (store : Store) (fn : Func) :
    (checkFuncFact env store fn = some ∅ → checkFunc env store fn = (store, false)) ∧
    (fn.obj = none → ∀ fact, checkFuncFact env store fn = some fact →
      checkFunc env store fn = (store, false)) ∧
    (∀ o fact, fn.obj = some o → checkFuncFact env store fn = some fact → fact ≠ ∅ →
      (checkFunc env store fn).1 = exportFact store o fact ∧
      exportFact store o fact o = some fact) := by
  refine ⟨?_, ?_, ?_⟩
  · intro h
    simp only [checkFunc, h]
    simp
  · intro hobj fact hfact
    simp only [checkFunc, hfact, hobj]
    by_cases he : fact = ∅
    · rw [if_pos he]
    · rw [if_neg he]
  · intro o fact hobj hfact hne
    refine ⟨?_, by simp [exportFact]⟩
    simp only [checkFunc, hfact, hobj]
    rw [if_neg hne]
    rcases hso : store o with _ | old
    · simp only [hso]
    · simp only [hso]
      by_cases hne2 : old ≠ fact
      · rw [if_pos hne2]
      · rw [if_neg hne2]

/-- `func A(p *int) { *p }` with no source-level object (an anonymous
function). -/
def fnAnon : Func := ⟨none, [⟨.pointer, .param 60, some [.unOp true (.param 60) 0]⟩], [⟨none, .noIf⟩]⟩

/-- C10 witness: the export-guard theorem applied three ways: the comma-ok
function computes an empty fact and leaves the store untouched; the
anonymous function computes `{0}` but exports nothing; `funcW` computes the
non-empty `{0}` and records it under its object. -/
theorem c10_witness :
    (checkFuncFact envAllDone emptyStore fnOk = some ∅ ∧
      checkFunc envAllDone emptyStore fnOk = (emptyStore, false)) ∧
    (fnAnon.obj = none ∧ checkFuncFact envAllDone emptyStore fnAnon = some {0} ∧
      checkFunc envAllDone emptyStore fnAnon = (emptyStore, false)) ∧
    (checkFuncFact envAllDone emptyStore funcW = some {0} ∧ ({0} : Fact) ≠ ∅ ∧
      (checkFunc envAllDone emptyStore funcW).1 = exportFact emptyStore 0 {0} ∧
      exportFact emptyStore 0 {0} 0 = some {0}) := by
  have hOk : checkFuncFact envAllDone emptyStore fnOk = some ∅ := by decide
  have hAnon : checkFuncFact envAllDone emptyStore fnAnon = some {0} := by decide
  have hW : checkFuncFact envAllDone emptyStore funcW = some {0} := by decide
  refine ⟨⟨hOk, ?_⟩, ⟨rfl, hAnon, ?_⟩, ⟨hW, by decide, ?_, ?_⟩⟩
  · exact (c10_export_guard envAllDone emptyStore fnOk).1 hOk
  · exact (c10_export_guard envAllDone emptyStore fnAnon).2.1 rfl {0} hAnon
  · exact ((c10_export_guard envAllDone emptyStore funcW).2.2 0 {0} rfl hW (by decide)).1
  · exact ((c10_export_guard envAllDone emptyStore funcW).2.2 0 {0} rfl hW (by decide)).2

end Nilarg
